import Mathlib

/-!
Verification of the pedigree-network module `pyp_network.py`.

The module operates on a directed pedigree graph (nodes = animal ids,
edges = parent → offspring).  We embed the graph as an explicit node list
plus edge list, and translate each routine of the source into a Lean
function.  The source delegates primitive graph queries to a third-party
graph library; those primitives are embedded as follows:

* `succAdj` / `predAdj` — successor / predecessor adjacency lists of a
  directed graph (edge insertion order preserved, as in a dict-backed
  adjacency structure);
* `degree` — total degree (in-degree plus out-degree) of a node;
* `nx_ancestors` / `nx_descendants` — the library's reachability queries:
  all nodes having a path to (resp. from) the given node, the node itself
  excluded; they fail only when the node is absent from the graph;
* `shortest_path_length` — breadth-first shortest directed path length,
  `none` when no path exists;
* `is_directed_acyclic_graph` — whether the graph has no directed cycle;
* `neighbors` / `has_neighbor` — Modelled from the spec: the spec
  describes the neighbor query of the external graph collaborator as
  undirected ("neighbors include both parents and offspring in an
  undirected sense", section 4.3; the dyad census classifies a pair as
  null "if neither has an edge to the other", section 4.4).

Stateful behaviour (the shared mutable default accumulator of
`find_ancestors_g`) is embedded by threading the default-argument cell
explicitly (`find_ancestors_g_default`).
-/

/-- A directed pedigree graph: a list of node ids and a list of directed
edges (parent, offspring).  Models a simple digraph: node and edge lists
are duplicate-free for every graph produced by the builder. -/
structure DiGraph where
  nodes : List Nat
  edges : List (Nat × Nat)
deriving Repr, DecidableEq

namespace DiGraph

/-- Successor (offspring) adjacency list of `n`, in edge order. -/
def succAdj (g : DiGraph) (n : Nat) : List Nat :=
  (g.edges.filter (fun e => e.1 == n)).map (fun e => e.2)

/-- Predecessor (parent) adjacency list of `n`, in edge order. -/
def predAdj (g : DiGraph) (n : Nat) : List Nat :=
  (g.edges.filter (fun e => e.2 == n)).map (fun e => e.1)

/-- Whether the directed edge `u → v` is present. -/
def hasEdge (g : DiGraph) (u v : Nat) : Bool :=
  (u, v) ∈ g.edges

/-- Total degree of a node: in-degree plus out-degree. -/
def degree (g : DiGraph) (n : Nat) : Nat :=
  (g.predAdj n).length + (g.succAdj n).length

/-- Modelled from the spec: the external graph collaborator's neighbor
query, "neighbors include both parents and offspring in an undirected
sense" (spec sections 4.2 and 4.3). -/
def neighbors (g : DiGraph) (n : Nat) : List Nat :=
  g.predAdj n ++ g.succAdj n

/-- Modelled from the spec: the external graph collaborator's adjacency
test between two nodes, undirected — the dyad census classifies a pair as
null "if neither has an edge to the other" (spec section 4.4). -/
def has_neighbor (g : DiGraph) (u v : Nat) : Bool :=
  g.hasEdge u v || g.hasEdge v u

end DiGraph

/-- One round of reachability expansion: keep the current set and add
every node adjacent to a member. -/
def stepOnce (adj : Nat → List Nat) (s : List Nat) : List Nat :=
  (s ++ s.flatMap adj).dedup

/-- Nodes reachable from `u` along `adj` in at most `fuel` steps. -/
def reachClosure (adj : Nat → List Nat) (fuel : Nat) (u : Nat) : List Nat :=
  (stepOnce adj)^[fuel] [u]

/-- Bounded reachability: a path from `u` to `v` of length at most `fuel`
along the adjacency `adj`, decomposed at the final step. -/
def breachN (adj : Nat → List Nat) : Nat → Nat → Nat → Prop
  | 0, u, v => u = v
  | fuel + 1, u, v => breachN adj fuel u v ∨ ∃ w, breachN adj fuel u w ∧ v ∈ adj w

/-- The library's acyclicity test: no node lies on a directed cycle.
A cycle visits only nodes of the graph, so a reachability budget equal to
the node count is exhaustive. -/
def is_directed_acyclic_graph (g : DiGraph) : Bool :=
  g.nodes.all (fun n =>
    (g.succAdj n).all (fun w => !((reachClosure g.succAdj g.nodes.length w).contains n)))

/-- The library's ancestor query: every node with a directed path to `n`,
excluding `n` itself.  Defined for any graph, cyclic or not. -/
def nx_ancestors (g : DiGraph) (n : Nat) : List Nat :=
  (reachClosure g.predAdj g.nodes.length n).filter (fun x => x ≠ n)

/-- The library's descendant query: every node with a directed path from
`n`, excluding `n` itself.  Defined for any graph, cyclic or not. -/
def nx_descendants (g : DiGraph) (n : Nat) : List Nat :=
  (reachClosure g.succAdj g.nodes.length n).filter (fun x => x ≠ n)

/-- Source `find_ancestors` (pyp_network.py:112): delegates to the
library ancestor query; the exception branch (returning `False`) is taken
exactly when the node is absent from the graph. -/
def find_ancestors (g : DiGraph) (anid : Nat) : Option (List Nat) :=
  if anid ∈ g.nodes then some (nx_ancestors g anid) else none

/-- Source `find_descendants` (pyp_network.py:169): delegates to the
library descendant query.  The exception branch (taken exactly when the
node is absent from the graph) assigns a misspelled variable
(`_decendants`, pyp_network.py:178), so the function returns the
untouched default accumulator `[]` instead of a failure value. -/
def find_descendants (g : DiGraph) (anid : Nat) : List Nat :=
  if anid ∈ g.nodes then nx_descendants g anid else []

/-- Recursive core of source `find_ancestors_g` (pyp_network.py:135).
For each predecessor not yet recorded, record it with the current
remaining-generation count and recurse with the count decreased; the
association list plays the role of the mutated dictionary, appended in
discovery order.  Recursion is on the generation budget. -/
def find_ancestors_g_core (g : DiGraph) : Nat → Nat → List (Nat × Nat) → List (Nat × Nat)
  | 0, _, acc => acc
  | gens + 1, anid, acc =>
    (g.predAdj anid).foldl
      (fun a p =>
        if p ∈ a.map Prod.fst then a
        else find_ancestors_g_core g gens p (a ++ [(p, gens + 1)]))
      acc

/-- Source `find_ancestors_g` (pyp_network.py:135): returns the incoming
accumulator unchanged when `gens = 0`; fails (the source returns `False`)
when the node is absent from the graph — the predecessor query raises
before anything is recorded; otherwise runs the recursive accumulation. -/
def find_ancestors_g (g : DiGraph) (anid : Nat) (acc : List (Nat × Nat)) (gens : Nat) :
    Option (List (Nat × Nat)) :=
  if gens = 0 then some acc
  else if anid ∈ g.nodes then some (find_ancestors_g_core g gens anid acc)
  else none

/-- A call of `find_ancestors_g` through its mutable default accumulator:
the cell's content is passed as the accumulator and, because the source
mutates the dictionary in place, the cell afterwards holds the returned
mapping (unchanged on the failure path, which raises before mutating). -/
def find_ancestors_g_default (g : DiGraph) (anid : Nat) (gens : Nat)
    (cell : List (Nat × Nat)) : Option (List (Nat × Nat)) × List (Nat × Nat) :=
  match find_ancestors_g g anid cell gens with
  | some l => (some l, l)
  | none => (none, cell)

/-- Source `count_offspring` (pyp_network.py:210): neighbor count minus
predecessor count; the exception branch returns 0 exactly when the node
is absent from the graph.  Python integer subtraction, hence `Int`. -/
def count_offspring (g : DiGraph) (anid : Nat) : Int :=
  if anid ∈ g.nodes then
    ((g.neighbors anid).length : Int) - ((g.predAdj anid).length : Int)
  else 0

/-- Source `offspring_influence` (pyp_network.py:230): for each direct
offspring of `anid`, its total degree minus its predecessor count;
iteration order is the successor (edge insertion) order.  Fails when the
node is absent from the graph. -/
def offspring_influence (g : DiGraph) (anid : Nat) : Option (List (Nat × Int)) :=
  if anid ∈ g.nodes then
    some ((g.succAdj anid).map (fun c =>
      (c, ((g.degree c : Int) - ((g.predAdj c).length : Int)))))
  else none

/-- Loop state of `most_influential_offspring`: running maximum, running
leader id, and the tie dictionary of the `all` branch (keys are `Int`
because the initial leader id is the sentinel -999). -/
structure MioState where
  maxOff : Int
  offid : Int
  temp : List (Int × Int)
deriving Repr, DecidableEq

/-- One iteration of the `most_influential_offspring` loop
(pyp_network.py:271): `first` updates on a strict new maximum, `last` on
ties as well; every other `resolve` value takes the `all` branch, which
resets the tie dictionary at the top of each iteration and re-adds only
the current offspring on a new maximum or a tie. -/
def mioStep (resolve : String) (st : MioState) (co : Nat × Int) : MioState :=
  let o : Int := co.1
  let v : Int := co.2
  if resolve = "first" then
    if v > st.maxOff then ⟨v, o, st.temp⟩ else st
  else if resolve = "last" then
    if v ≥ st.maxOff then ⟨v, o, st.temp⟩ else st
  else
    if v > st.maxOff then ⟨v, o, [(o, v)]⟩
    else if v = st.maxOff then ⟨st.maxOff, o, [(o, v)]⟩
    else ⟨st.maxOff, st.offid, []⟩

/-- Source `most_influential_offspring` (pyp_network.py:258): folds the
loop over the influence mapping from sentinel state (-999, -999, {});
the `all` resolution returns the tie dictionary, every other resolution
returns the single entry (leader id, maximum).  Fails when the influence
query fails (the loop over `False` raises). -/
def most_influential_offspring (g : DiGraph) (anid : Nat) (resolve : String) :
    Option (List (Int × Int)) :=
  match offspring_influence g anid with
  | none => none
  | some off =>
    let st := off.foldl (mioStep resolve) ⟨-999, -999, []⟩
    if resolve = "all" then some st.temp
    else some [(st.offid, st.maxOff)]

/-- The library's shortest directed path length from `u` to `v`:
the least number of expansion rounds after which `v` is reachable from
`u`, `none` when `v` is unreachable within the exhaustive budget.
The source's no-path exception is the `none` case. -/
def shortest_path_length (g : DiGraph) (u v : Nat) : Option Nat :=
  (List.range (g.nodes.length + 1)).find? (fun k => (reachClosure g.succAdj k u).contains v)

/-- Ordered pairs produced by the source's shrinking-copy double loop
(delete the outer node, iterate the remainder): every pair of a node and
a strictly later node of the list. -/
def orderedPairs : List Nat → List (Nat × Nat)
  | [] => []
  | u :: rest => rest.map (fun v => (u, v)) ++ orderedPairs rest

/-- One iteration of the `mean_geodesic` pair loop (pyp_network.py:431):
accumulate the path length and, on acyclic input, the pair count; pairs
without a path are skipped (the no-path error is swallowed). -/
def geoStep (g : DiGraph) (isdag : Bool) (acc : ℚ × ℚ) (uv : Nat × Nat) : ℚ × ℚ :=
  match shortest_path_length g uv.1 uv.2 with
  | none => acc
  | some l =>
    if 0 < l then (acc.1 + (l : ℚ), if isdag then acc.2 + 1 else acc.2)
    else acc

/-- Source `mean_geodesic` (pyp_network.py:421): the pair counter starts
at 0 for acyclic input and at n(n+1)/2 otherwise; the loop visits only
the `orderedPairs` of the node list; the final division fails (the
source returns `False`) exactly on a zero counter. -/
def mean_geodesic (g : DiGraph) : Option ℚ :=
  let isdag := is_directed_acyclic_graph g
  let init : ℚ × ℚ :=
    (0, if isdag then 0 else ((g.nodes.length : ℚ) * ((g.nodes.length : ℚ) + 1)) / 2)
  let r := (orderedPairs g.nodes).foldl (geoStep g isdag) init
  if r.2 = 0 then none else some (r.1 / r.2)

/-- Dyad census counters. -/
structure Census where
  null : Nat
  asymmetric : Nat
  mutuals : Nat
deriving Repr, DecidableEq

/-- One iteration of the `dyad_census` pair loop (pyp_network.py:503),
with the source's conditions verbatim: no adjacency at all → null;
`u ∈ pred v` and `v ∈ succ u` → mutual; `u ∈ pred v` and `v ∉ succ u`
or `u ∉ pred v` and `v ∈ succ u` → asymmetric; otherwise no counter. -/
def dyadStep (g : DiGraph) (c : Census) (uv : Nat × Nat) : Census :=
  if !(g.has_neighbor uv.1 uv.2) then { c with null := c.null + 1 }
  else if uv.1 ∈ g.predAdj uv.2 ∧ uv.2 ∈ g.succAdj uv.1 then
    { c with mutuals := c.mutuals + 1 }
  else if uv.1 ∈ g.predAdj uv.2 ∧ uv.2 ∉ g.succAdj uv.1 then
    { c with asymmetric := c.asymmetric + 1 }
  else if uv.1 ∉ g.predAdj uv.2 ∧ uv.2 ∈ g.succAdj uv.1 then
    { c with asymmetric := c.asymmetric + 1 }
  else c

/-- Source `dyad_census` (pyp_network.py:487): fails on cyclic input,
otherwise folds the classification over the ordered pairs of the node
list. -/
def dyad_census (g : DiGraph) : Option Census :=
  if is_directed_acyclic_graph g then
    some ((orderedPairs g.nodes).foldl (dyadStep g) ⟨0, 0, 0⟩)
  else none

/-- Scenario graph of the spec's tie-break tests: founder 1 with children
2 (two offspring), 3 (two offspring) and 4 (none), in discovery order. -/
def gScen : DiGraph :=
  ⟨[1, 2, 3, 4, 5, 6, 7, 8], [(1, 2), (1, 3), (1, 4), (2, 5), (2, 6), (3, 7), (3, 8)]⟩

/-- Chain pedigree of the bounded-ancestor scenario: 1 → 2 → 3 → 4. -/
def gChain : DiGraph := ⟨[1, 2, 3, 4], [(1, 2), (2, 3), (3, 4)]⟩

/-- Ancestor 1 reaches 4 both directly and through 2: exercises the
first-discovery rule of the bounded ancestor search. -/
def gMulti : DiGraph := ⟨[1, 2, 4], [(1, 2), (2, 4), (1, 4)]⟩

/-- Two unrelated families 1 → 2 and 3 → 4. -/
def gTwoFam : DiGraph := ⟨[1, 2, 3, 4], [(1, 2), (3, 4)]⟩

/-- A two-node directed cycle. -/
def gCyc : DiGraph := ⟨[1, 2], [(1, 2), (2, 1)]⟩

/-- Acyclic graph whose only edge runs against node-iteration order. -/
def gRev : DiGraph := ⟨[1, 2], [(2, 1)]⟩

/-- Three nodes, one edge in iteration order. -/
def gOneEdge : DiGraph := ⟨[1, 2, 3], [(1, 2)]⟩

/-- Two nodes, one edge in iteration order. -/
def gPath : DiGraph := ⟨[1, 2], [(1, 2)]⟩

/-- A single isolated node. -/
def gIso : DiGraph := ⟨[5], []⟩

/-- Running maximum of the influence values of an association list,
started from `init`. -/
def maxVal (l : List (Nat × Int)) (init : Int) : Int :=
  l.foldl (fun a p => max a p.2) init

/-- The geodesic lengths the `mean_geodesic` loop accumulates: one entry
per ordered pair (in node-list order) that has a positive-length shortest
path. -/
def geoLengths (g : DiGraph) : List Nat :=
  (orderedPairs g.nodes).filterMap (fun uv =>
    match shortest_path_length g uv.1 uv.2 with
    | none => none
    | some l => if 0 < l then some l else none)

/-- A pair the dyad-census loop actually counts: either no adjacency at
all (null) or an edge from the earlier-iterated node to the later one
(counted as mutual).  A pair whose only edge runs against iteration order
is skipped by the loop. -/
def countedPair (g : DiGraph) (uv : Nat × Nat) : Bool :=
  !(g.has_neighbor uv.1 uv.2) || g.hasEdge uv.1 uv.2

theorem mem_succAdj (g : DiGraph) (u w : Nat) :
    w ∈ g.succAdj u ↔ (u, w) ∈ g.edges := by
  simp only [DiGraph.succAdj, List.mem_map, List.mem_filter, beq_iff_eq]
  constructor
  · rintro ⟨⟨a, b⟩, ⟨hm, h1⟩, h2⟩
    simp only at h1 h2
    subst h1; subst h2; exact hm
  · intro h
    exact ⟨(u, w), ⟨h, rfl⟩, rfl⟩

theorem mem_predAdj (g : DiGraph) (u w : Nat) :
    u ∈ g.predAdj w ↔ (u, w) ∈ g.edges := by
  simp only [DiGraph.predAdj, List.mem_map, List.mem_filter, beq_iff_eq]
  constructor
  · rintro ⟨⟨a, b⟩, ⟨hm, h1⟩, h2⟩
    simp only at h1 h2
    subst h1; subst h2; exact hm
  · intro h
    exact ⟨(u, w), ⟨h, rfl⟩, rfl⟩

theorem mem_stepOnce (adj : Nat → List Nat) (s : List Nat) (v : Nat) :
    v ∈ stepOnce adj s ↔ v ∈ s ∨ ∃ w ∈ s, v ∈ adj w := by
  simp [stepOnce, List.mem_dedup, List.mem_append, List.mem_flatMap]

theorem mem_reachClosure (adj : Nat → List Nat) :
    ∀ (f : Nat) (u v : Nat), v ∈ reachClosure adj f u ↔ breachN adj f u v := by
  intro f
  induction f with
  | zero =>
    intro u v
    simp [reachClosure, breachN, eq_comm]
  | succ f ih =>
    intro u v
    have h1 : reachClosure adj (f + 1) u = stepOnce adj (reachClosure adj f u) := by
      simp [reachClosure, Function.iterate_succ_apply']
    rw [h1, mem_stepOnce]
    show _ ↔ breachN adj f u v ∨ ∃ w, breachN adj f u w ∧ v ∈ adj w
    constructor
    · rintro (h | ⟨w, hw, hv⟩)
      · exact Or.inl ((ih u v).mp h)
      · exact Or.inr ⟨w, (ih u w).mp hw, hv⟩
    · rintro (h | ⟨w, hw, hv⟩)
      · exact Or.inl ((ih u v).mpr h)
      · exact Or.inr ⟨w, (ih u w).mpr hw, hv⟩

theorem breachN_step (adj : Nat → List Nat) :
    ∀ (f : Nat) (u v : Nat),
      breachN adj (f + 1) u v ↔ breachN adj f u v ∨ ∃ w, w ∈ adj u ∧ breachN adj f w v := by
  intro f
  induction f with
  | zero =>
    intro u v
    show (u = v ∨ ∃ w, u = w ∧ v ∈ adj w) ↔ (u = v ∨ ∃ w, w ∈ adj u ∧ w = v)
    constructor
    · rintro (h | ⟨w, rfl, hv⟩)
      · exact Or.inl h
      · exact Or.inr ⟨v, hv, rfl⟩
    · rintro (h | ⟨w, hw, rfl⟩)
      · exact Or.inl h
      · exact Or.inr ⟨u, rfl, hw⟩
  | succ f ih =>
    intro u v
    show (breachN adj (f + 1) u v ∨ ∃ w, breachN adj (f + 1) u w ∧ v ∈ adj w) ↔
      (breachN adj (f + 1) u v ∨ ∃ w, w ∈ adj u ∧ breachN adj (f + 1) w v)
    constructor
    · rintro (h | ⟨w, hw, hv⟩)
      · exact Or.inl h
      · rcases (ih u w).mp hw with h' | ⟨x, hx, h'⟩
        · exact Or.inl (Or.inr ⟨w, h', hv⟩)
        · exact Or.inr ⟨x, hx, Or.inr ⟨w, h', hv⟩⟩
    · rintro (h | ⟨w, hw, h⟩)
      · exact Or.inl h
      · rcases h with h' | ⟨x, hx, hv⟩
        · exact Or.inl ((ih u v).mpr (Or.inr ⟨w, hw, h'⟩))
        · exact Or.inr ⟨x, (ih u x).mpr (Or.inr ⟨w, hw, hx⟩), hv⟩

theorem breachN_symm (g : DiGraph) :
    ∀ (f : Nat) (u v : Nat),
      breachN g.succAdj f u v ↔ breachN g.predAdj f v u := by
  intro f
  induction f with
  | zero =>
    intro u v
    exact eq_comm
  | succ f ih =>
    intro u v
    rw [breachN_step g.predAdj f v u]
    show (breachN g.succAdj f u v ∨ ∃ w, breachN g.succAdj f u w ∧ v ∈ g.succAdj w) ↔ _
    constructor
    · rintro (h | ⟨w, hw, hv⟩)
      · exact Or.inl ((ih u v).mp h)
      · exact Or.inr ⟨w, (mem_predAdj g w v).mpr ((mem_succAdj g w v).mp hv), (ih u w).mp hw⟩
    · rintro (h | ⟨w, hw, hu⟩)
      · exact Or.inl ((ih u v).mpr h)
      · exact Or.inr ⟨w, (ih u w).mpr hu, (mem_succAdj g w v).mpr ((mem_predAdj g w v).mp hw)⟩

/-- C8: on an acyclic graph, for nodes `u`, `v` of the graph, `v` is a
member of `find_descendants(graph, u)` exactly when `u` is a member of
`find_ancestors(graph, v)`. -/
theorem c8_symmetry (g : DiGraph) (u v : Nat)
    (hdag : is_directed_acyclic_graph g = true)
    (hu : u ∈ g.nodes) (hv : v ∈ g.nodes) :
    ∃ la, find_ancestors g v = some la ∧
      (v ∈ find_descendants g u ↔ u ∈ la) := by
  refine ⟨nx_ancestors g v, by simp [find_ancestors, hv], ?_⟩
  rw [find_descendants, if_pos hu]
  simp only [nx_descendants, nx_ancestors, List.mem_filter, decide_eq_true_eq, ne_eq]
  rw [mem_reachClosure, mem_reachClosure, breachN_symm]
  constructor
  · rintro ⟨h, hne⟩
    exact ⟨h, fun he => hne he.symm⟩
  · rintro ⟨h, hne⟩
    exact ⟨h, fun he => hne he.symm⟩

/-- Witness for C8 on the concrete graph `gPath`. -/
theorem c8_symmetry_witness :
    is_directed_acyclic_graph gPath = true ∧ 1 ∈ gPath.nodes ∧ 2 ∈ gPath.nodes ∧
    ∃ la, find_ancestors gPath 2 = some la ∧
      (2 ∈ find_descendants gPath 1 ↔ 1 ∈ la) :=
  ⟨by decide, by decide, by decide, c8_symmetry gPath 1 2 (by decide) (by decide) (by decide)⟩

/-- C1: evaluation of the code at the spec's tie-break scenario.  The
influence mapping is A:2, B:2, C:0 (nodes 2, 3, 4), yet resolving `all`
returns the empty mapping, not {A:2, B:2} — the tie dictionary is reset
at the top of every loop iteration, so entries from earlier iterations
are discarded. -/
theorem c1_all_tie_scenario_eval :
    offspring_influence gScen 1 = some [(2, 2), (3, 2), (4, 0)] ∧
    most_influential_offspring gScen 1 "all" = some [] ∧
    (some [] : Option (List (Int × Int))) ≠ some [(2, 2), (3, 2)] := by
  refine ⟨by decide, by decide, by decide⟩

/-- C2 counterexample: on the chain 1 → 2 → 3 → 4 with two generations,
the bounded ancestor search records node 3 with value 2 (the remaining
generation budget at discovery), not 1 as the claim's scenario states. -/
theorem c2_counterexample :
    find_ancestors_g gChain 4 [] 2 = some [(3, 2), (2, 1)] ∧
    List.lookup 3 [(3, 2), (2, 1)] = some 2 ∧ (some 2 : Option Nat) ≠ some 1 := by
  refine ⟨by decide, by decide, by decide⟩

/-- C2 (amended): on the chain 1 → 2 → 3 → 4, one generation gives
{3 ↦ 1}, two generations give {3 ↦ 2, 2 ↦ 1} (each ancestor is recorded
with the remaining generation budget at discovery, so values decrease
with depth), zero generations give the empty mapping; and an ancestor
reachable by several paths keeps the value of its first discovery (in
`gMulti` node 1 is also a direct parent of 4, yet keeps value 2 from its
earlier, deeper discovery). -/
theorem c2_bounded_ancestor_scenario :
    find_ancestors_g gChain 4 [] 1 = some [(3, 1)] ∧
    find_ancestors_g gChain 4 [] 2 = some [(3, 2), (2, 1)] ∧
    find_ancestors_g gChain 4 [] 0 = some [] ∧
    find_ancestors_g gMulti 4 [] 3 = some [(2, 3), (1, 2)] ∧
    List.lookup 1 [(2, 3), (1, 2)] = some 2 := by
  refine ⟨by decide, by decide, by decide, by decide, by decide⟩

/-- C3 counterexample: on the two-node cycle both traversals return an
ordinary reachability set, not a failure value; and `find_descendants`
cannot produce a failure value at all — even on an absent node its
misspelled except branch returns the untouched default `[]`. -/
theorem c3_cycle_counterexample :
    gCyc.hasEdge 1 2 = true ∧ gCyc.hasEdge 2 1 = true ∧
    find_ancestors gCyc 1 = some [2] ∧ find_ancestors gCyc 1 ≠ none ∧
    find_descendants gCyc 1 = [2] ∧ find_descendants gCyc 99 = [] := by
  refine ⟨by decide, by decide, by decide, by decide, by decide, by decide⟩

/-- C3 (amended): for any node present in the graph — whether or not a
cycle is reachable from it — `find_ancestors` and `find_descendants`
terminate and return ordinary reachability sets never containing the
node itself; no MalformedGraph-style failure value is produced for
cyclic input. -/
theorem c3_traversal_total_amended (g : DiGraph) (anid : Nat) (h : anid ∈ g.nodes) :
    ∃ la, find_ancestors g anid = some la ∧ anid ∉ la ∧
      anid ∉ find_descendants g anid := by
  refine ⟨nx_ancestors g anid, by simp [find_ancestors, h], ?_, ?_⟩
  · simp [nx_ancestors, List.mem_filter]
  · rw [find_descendants, if_pos h]
    simp [nx_descendants, List.mem_filter]

/-- Witness for C3 (amended) on the concrete cyclic graph `gCyc`. -/
theorem c3_traversal_total_witness :
    2 ∈ gCyc.nodes ∧
    ∃ la, find_ancestors gCyc 2 = some la ∧ 2 ∉ la ∧
      2 ∉ find_descendants gCyc 2 :=
  ⟨by decide, c3_traversal_total_amended gCyc 2 (by decide)⟩

theorem foldl_extends {β : Type} (f : List (Nat × Nat) → β → List (Nat × Nat))
    (hf : ∀ a x, ∃ t, f a x = a ++ t) :
    ∀ (l : List β) (a : List (Nat × Nat)), ∃ t, l.foldl f a = a ++ t := by
  intro l
  induction l with
  | nil => exact fun a => ⟨[], by simp⟩
  | cons x xs ih =>
    intro a
    obtain ⟨t1, ht1⟩ := hf a x
    obtain ⟨t2, ht2⟩ := ih (f a x)
    exact ⟨t1 ++ t2, by rw [List.foldl_cons, ht2, ht1, List.append_assoc]⟩

theorem find_ancestors_g_core_extends (g : DiGraph) :
    ∀ (gens anid : Nat) (acc : List (Nat × Nat)),
      ∃ t, find_ancestors_g_core g gens anid acc = acc ++ t := by
  intro gens
  induction gens with
  | zero => exact fun anid acc => ⟨[], by simp [find_ancestors_g_core]⟩
  | succ gens ih =>
    intro anid acc
    refine foldl_extends _ ?_ (g.predAdj anid) acc
    intro a p
    by_cases hp : p ∈ a.map Prod.fst
    · exact ⟨[], by simp [hp]⟩
    · obtain ⟨t, ht⟩ := ih p (a ++ [(p, gens + 1)])
      exact ⟨(p, gens + 1) :: t, by simp [hp, ht]⟩

/-- C6 counterexample: two unrelated default-accumulator calls on the
two-family graph.  The first call (ancestors of 2) stores {1 ↦ 3} in the
default cell; the second call (ancestors of 4) then returns a mapping
still containing node 1 — unlike the identical call made with a fresh
empty accumulator, which returns {3 ↦ 3} only.  The query is therefore
not a pure function of its explicit arguments. -/
theorem c6_default_leak_counterexample :
    find_ancestors_g_default gTwoFam 2 3 [] = (some [(1, 3)], [(1, 3)]) ∧
    find_ancestors_g_default gTwoFam 4 3 [(1, 3)] = (some [(1, 3), (3, 3)], [(1, 3), (3, 3)]) ∧
    find_ancestors_g gTwoFam 4 [] 3 = some [(3, 3)] ∧
    ([(1, 3), (3, 3)] : List (Nat × Nat)) ≠ [(3, 3)] := by
  refine ⟨by decide, by decide, by decide, by decide⟩

/-- C6 (amended): the bounded ancestor search is a pure function of
graph, node, generation bound AND accumulator, and every mapping it
returns extends the incoming accumulator — so a call made through the
retained mutable default accumulator sees every entry left there by
earlier calls. -/
theorem c6_accumulator_retention_amended (g : DiGraph) (anid gens : Nat)
    (acc l : List (Nat × Nat))
    (h : find_ancestors_g g anid acc gens = some l) : ∃ t, l = acc ++ t := by
  unfold find_ancestors_g at h
  by_cases h0 : gens = 0
  · simp only [h0, if_true] at h
    exact ⟨[], by simp [← Option.some_inj.mp h]⟩
  · simp only [h0, if_false] at h
    by_cases hm : anid ∈ g.nodes
    · simp only [hm, if_true] at h
      obtain ⟨t, ht⟩ := find_ancestors_g_core_extends g gens anid acc
      exact ⟨t, by rw [← Option.some_inj.mp h, ht]⟩
    · simp [hm] at h

/-- Witness for C6 (amended) at the second default call of the
counterexample scenario. -/
theorem c6_accumulator_retention_witness :
    find_ancestors_g gTwoFam 4 [(1, 3)] 3 = some [(1, 3), (3, 3)] ∧
    ∃ t, [(1, 3), (3, 3)] = [(1, 3)] ++ t :=
  ⟨by decide, c6_accumulator_retention_amended gTwoFam 4 3 [(1, 3)] [(1, 3), (3, 3)] (by decide)⟩

/-- C7: `count_offspring` returns the number of direct offspring for a
node of the graph (the undirected neighbor count minus the parent count
collapses to the successor count) and 0 for an unknown identifier. -/
theorem c7_count_offspring (g : DiGraph) (anid : Nat) :
    count_offspring g anid = if anid ∈ g.nodes then ((g.succAdj anid).length : Int) else 0 := by
  by_cases h : anid ∈ g.nodes
  · simp only [count_offspring, DiGraph.neighbors, h, if_true, List.length_append]
    push_cast
    ring
  · simp [count_offspring, h]

theorem maxVal_cons (p : Nat × Int) (t : List (Nat × Int)) (init : Int) :
    maxVal (p :: t) init = maxVal t (max init p.2) := rfl

theorem le_maxVal : ∀ (l : List (Nat × Int)) (init : Int), init ≤ maxVal l init := by
  intro l
  induction l with
  | nil => intro init; exact le_refl _
  | cons p t ih =>
    intro init
    rw [maxVal_cons]
    exact le_trans (le_max_left init p.2) (ih _)

theorem mem_le_maxVal : ∀ (l : List (Nat × Int)) (init : Int) (p : Nat × Int),
    p ∈ l → p.2 ≤ maxVal l init := by
  intro l
  induction l with
  | nil => intro init p hp; cases hp
  | cons q t ih =>
    intro init p hp
    rw [maxVal_cons]
    rcases List.mem_cons.mp hp with rfl | hp
    · exact le_trans (le_max_right init p.2) (le_maxVal t _)
    · exact ih _ p hp

theorem maxVal_attained : ∀ (l : List (Nat × Int)) (init : Int),
    maxVal l init = init ∨ ∃ p ∈ l, p.2 = maxVal l init := by
  intro l
  induction l with
  | nil => intro init; exact Or.inl rfl
  | cons q t ih =>
    intro init
    rw [maxVal_cons]
    rcases ih (max init q.2) with h | ⟨p, hp, hpe⟩
    · rcases le_total q.2 init with hle | hle
      · rw [max_eq_left hle] at h ⊢
        exact Or.inl h
      · rw [max_eq_right hle] at h ⊢
        exact Or.inr ⟨q, List.mem_cons_self q t, h.symm⟩
    · exact Or.inr ⟨p, List.mem_cons_of_mem q hp, hpe⟩

theorem mioStep_first (st : MioState) (co : Nat × Int) :
    mioStep "first" st co = if co.2 > st.maxOff then ⟨co.2, co.1, st.temp⟩ else st := rfl

theorem mioStep_last (st : MioState) (co : Nat × Int) :
    mioStep "last" st co = if co.2 ≥ st.maxOff then ⟨co.2, co.1, st.temp⟩ else st := rfl

theorem fold_first_fixed : ∀ (l : List (Nat × Int)) (st : MioState),
    (∀ p ∈ l, p.2 ≤ st.maxOff) → l.foldl (mioStep "first") st = st := by
  intro l
  induction l with
  | nil => intro st _; rfl
  | cons q t ih =>
    intro st h
    rw [List.foldl_cons, mioStep_first,
      if_neg (not_lt.mpr (h q (List.mem_cons_self q t)))]
    exact ih st (fun p hp => h p (List.mem_cons_of_mem q hp))

theorem fold_last_fixed : ∀ (l : List (Nat × Int)) (st : MioState),
    (∀ p ∈ l, p.2 < st.maxOff) → l.foldl (mioStep "last") st = st := by
  intro l
  induction l with
  | nil => intro st _; rfl
  | cons q t ih =>
    intro st h
    rw [List.foldl_cons, mioStep_last,
      if_neg (not_le.mpr (h q (List.mem_cons_self q t)))]
    exact ih st (fun p hp => h p (List.mem_cons_of_mem q hp))

theorem fold_first_argmax : ∀ (l : List (Nat × Int)) (st : MioState),
    st.maxOff < maxVal l st.maxOff →
    ∃ pr : Nat × Int,
      l.find? (fun p => p.2 == maxVal l st.maxOff) = some pr ∧
      pr.2 = maxVal l st.maxOff ∧
      l.foldl (mioStep "first") st = ⟨maxVal l st.maxOff, (pr.1 : Int), st.temp⟩ := by
  intro l
  induction l with
  | nil => intro st h; exact absurd h (lt_irrefl _)
  | cons q t ih =>
    intro st h
    by_cases hq : st.maxOff < q.2
    · have hM : maxVal (q :: t) st.maxOff = maxVal t q.2 := by
        rw [maxVal_cons, max_eq_right (le_of_lt hq)]
      have hstep : mioStep "first" st q = ⟨q.2, q.1, st.temp⟩ := by
        rw [mioStep_first, if_pos hq]
      by_cases hqM : q.2 = maxVal (q :: t) st.maxOff
      · have hfix : t.foldl (mioStep "first") ⟨q.2, q.1, st.temp⟩ = ⟨q.2, q.1, st.temp⟩ := by
          apply fold_first_fixed
          intro p hp
          show p.2 ≤ q.2
          rw [hqM, hM]
          exact mem_le_maxVal t q.2 p hp
        refine ⟨q, ?_, hqM, ?_⟩
        · exact List.find?_cons_of_pos _ (by simp [hqM])
        · rw [List.foldl_cons, hstep, hfix, ← hqM]
      · have hlt : q.2 < maxVal t q.2 := by
          rw [← hM]
          exact lt_of_le_of_ne
            (mem_le_maxVal (q :: t) st.maxOff q (List.mem_cons_self q t)) hqM
        obtain ⟨pr, hf, hpe, hfold⟩ := ih ⟨q.2, q.1, st.temp⟩ hlt
        rw [hM]
        refine ⟨pr, ?_, hpe, ?_⟩
        · refine Eq.trans (List.find?_cons_of_neg _ ?_) hf
          simp only [beq_iff_eq]
          rw [← hM]
          exact hqM
        · rw [List.foldl_cons, hstep, hfold]
    · have hle : q.2 ≤ st.maxOff := not_lt.mp hq
      have hM : maxVal (q :: t) st.maxOff = maxVal t st.maxOff := by
        rw [maxVal_cons, max_eq_left hle]
      have hstep : mioStep "first" st q = st := by rw [mioStep_first, if_neg hq]
      rw [hM] at h ⊢
      obtain ⟨pr, hf, hpe, hfold⟩ := ih st h
      refine ⟨pr, ?_, hpe, ?_⟩
      · refine Eq.trans (List.find?_cons_of_neg _ ?_) hf
        simp only [beq_iff_eq]
        exact ne_of_lt (lt_of_le_of_lt hle h)
      · rw [List.foldl_cons, hstep, hfold]

theorem find?_append_some {α : Type} (p : α → Bool) :
    ∀ (l₁ : List α) (l₂ : List α) (b : α),
      l₁.find? p = some b → (l₁ ++ l₂).find? p = some b := by
  intro l₁
  induction l₁ with
  | nil => intro l₂ b h; cases h
  | cons a l ih =>
    intro l₂ b h
    by_cases ha : p a
    · rw [List.find?_cons_of_pos _ ha] at h
      rw [List.cons_append, List.find?_cons_of_pos _ ha]
      exact h
    · rw [List.find?_cons_of_neg _ ha] at h
      rw [List.cons_append, List.find?_cons_of_neg _ ha]
      exact ih l₂ b h

theorem find?_append_none {α : Type} (p : α → Bool) :
    ∀ (l₁ : List α) (l₂ : List α),
      l₁.find? p = none → (l₁ ++ l₂).find? p = l₂.find? p := by
  intro l₁
  induction l₁ with
  | nil => intro l₂ _; rfl
  | cons a l ih =>
    intro l₂ h
    by_cases ha : p a
    · rw [List.find?_cons_of_pos _ ha] at h
      cases h
    · rw [List.find?_cons_of_neg _ ha] at h
      rw [List.cons_append, List.find?_cons_of_neg _ ha]
      exact ih l₂ h

theorem exists_find?_of_mem {α : Type} (p : α → Bool) :
    ∀ (l : List α) (a : α), a ∈ l → p a → ∃ b, l.find? p = some b := by
  intro l
  induction l with
  | nil => intro a ha _; cases ha
  | cons q t ih =>
    intro a ha hpa
    by_cases hq : p q
    · exact ⟨q, List.find?_cons_of_pos _ hq⟩
    · rcases List.mem_cons.mp ha with rfl | ha
      · exact absurd hpa hq
      · obtain ⟨b, hb⟩ := ih a ha hpa
        exact ⟨b, by rw [List.find?_cons_of_neg _ hq]; exact hb⟩

theorem find?_singleton_pos {α : Type} (p : α → Bool) (a : α) (h : p a = true) :
    List.find? p [a] = some a := by
  simp [List.find?, h]

theorem find?_singleton_neg {α : Type} (p : α → Bool) (a : α) (h : p a = false) :
    List.find? p [a] = none := by
  simp [List.find?, h]

theorem fold_last_argmax : ∀ (l : List (Nat × Int)) (st : MioState) (pr : Nat × Int),
    l.reverse.find? (fun p => p.2 == maxVal l st.maxOff) = some pr →
    pr.2 = maxVal l st.maxOff ∧
    l.foldl (mioStep "last") st = ⟨maxVal l st.maxOff, (pr.1 : Int), st.temp⟩ := by
  intro l
  induction l with
  | nil => intro st pr h; cases h
  | cons q t ih =>
    intro st pr hfind
    rw [List.reverse_cons] at hfind
    by_cases hq : st.maxOff ≤ q.2
    · have hM : maxVal (q :: t) st.maxOff = maxVal t q.2 := by
        rw [maxVal_cons, max_eq_right hq]
      have hstep : mioStep "last" st q = ⟨q.2, q.1, st.temp⟩ := by
        rw [mioStep_last, if_pos hq]
      rw [hM] at hfind ⊢
      cases hrev : t.reverse.find? (fun p => p.2 == maxVal t q.2) with
      | some pr2 =>
        rw [find?_append_some _ _ _ _ hrev] at hfind
        obtain ⟨hpe, hfold⟩ :=
          ih ⟨q.2, q.1, st.temp⟩ pr (by rw [hfind] at hrev; exact hrev)
        exact ⟨hpe, by rw [List.foldl_cons, hstep, hfold]⟩
      | none =>
        have hnone : ∀ p ∈ t, ¬ (p.2 = maxVal t q.2) := by
          intro p hp he
          have := List.find?_eq_none.mp hrev p (List.mem_reverse.mpr hp)
          simp [he] at this
        have hMq : maxVal t q.2 = q.2 := by
          rcases maxVal_attained t q.2 with h | ⟨p, hp, hpe⟩
          · exact h
          · exact absurd hpe.symm (fun he => hnone p hp he.symm)
        have hq2 : ((fun p : Nat × Int => p.2 == maxVal t q.2) q) = true := by
          simp [hMq]
        rw [find?_append_none _ _ _ hrev, find?_singleton_pos _ q hq2] at hfind
        cases hfind
        refine ⟨hMq.symm, ?_⟩
        have hfix : t.foldl (mioStep "last") ⟨q.2, q.1, st.temp⟩ = ⟨q.2, q.1, st.temp⟩ := by
          apply fold_last_fixed
          intro p hp
          show p.2 < q.2
          have h1 : p.2 ≤ q.2 := by
            have h2 := mem_le_maxVal t q.2 p hp
            rw [hMq] at h2
            exact h2
          rcases lt_or_eq_of_le h1 with h2 | h2
          · exact h2
          · exact absurd (h2.trans hMq.symm) (hnone p hp)
        rw [List.foldl_cons, hstep, hfix, hMq]
    · have hlt : q.2 < st.maxOff := not_le.mp hq
      have hM : maxVal (q :: t) st.maxOff = maxVal t st.maxOff := by
        rw [maxVal_cons, max_eq_left (le_of_lt hlt)]
      have hstep : mioStep "last" st q = st := by rw [mioStep_last, if_neg hq]
      rw [hM] at hfind ⊢
      have hqP : ((fun p : Nat × Int => p.2 == maxVal t st.maxOff) q) = false := by
        simp only [beq_eq_false_iff_ne, ne_eq]
        exact ne_of_lt (lt_of_lt_of_le hlt (le_maxVal t st.maxOff))
      cases hrev : t.reverse.find? (fun p => p.2 == maxVal t st.maxOff) with
      | some pr2 =>
        rw [find?_append_some _ _ _ _ hrev] at hfind
        obtain ⟨hpe, hfold⟩ := ih st pr (by rw [hfind] at hrev; exact hrev)
        exact ⟨hpe, by rw [List.foldl_cons, hstep, hfold]⟩
      | none =>
        rw [find?_append_none _ _ _ hrev, find?_singleton_neg _ q hqP] at hfind
        cases hfind

theorem offspring_influence_nonneg (g : DiGraph) (anid : Nat) (off : List (Nat × Int))
    (h : offspring_influence g anid = some off) : ∀ p ∈ off, 0 ≤ p.2 := by
  by_cases hm : anid ∈ g.nodes
  · simp only [offspring_influence, hm, if_true, Option.some_inj] at h
    subst h
    intro p hp
    rcases List.mem_map.mp hp with ⟨c, _, rfl⟩
    show (0 : Int) ≤ (g.degree c : Int) - ((g.predAdj c).length : Int)
    simp only [DiGraph.degree]
    push_cast
    omega
  · simp [offspring_influence, hm] at h

theorem most_influential_offspring_eq (g : DiGraph) (anid : Nat) (resolve : String)
    (off : List (Nat × Int)) (h : offspring_influence g anid = some off) :
    most_influential_offspring g anid resolve =
      if resolve = "all" then some (off.foldl (mioStep resolve) ⟨-999, -999, []⟩).temp
      else some [((off.foldl (mioStep resolve) ⟨-999, -999, []⟩).offid,
                  (off.foldl (mioStep resolve) ⟨-999, -999, []⟩).maxOff)] := by
  unfold most_influential_offspring
  rw [h]

/-- C9: for a node of the graph with at least one offspring, resolving
`first` returns the single entry for the first offspring (in discovery
order) whose influence count equals the maximum, and resolving `last`
returns the single entry for the last such offspring; the value `maxVal
off (-999)` is characterized as the maximum of the influence counts by
the bounding and attainment conjuncts. -/
theorem c9_first_last (g : DiGraph) (anid : Nat)
    (hmem : anid ∈ g.nodes) (hne : g.succAdj anid ≠ []) :
    ∃ off prF prL,
      offspring_influence g anid = some off ∧ off ≠ [] ∧
      (∀ p ∈ off, p.2 ≤ maxVal off (-999)) ∧
      (∃ p ∈ off, p.2 = maxVal off (-999)) ∧
      off.find? (fun p => p.2 == maxVal off (-999)) = some prF ∧
      off.reverse.find? (fun p => p.2 == maxVal off (-999)) = some prL ∧
      most_influential_offspring g anid "first" = some [((prF.1 : Int), maxVal off (-999))] ∧
      most_influential_offspring g anid "last" = some [((prL.1 : Int), maxVal off (-999))] := by
  have hoff : offspring_influence g anid =
      some ((g.succAdj anid).map (fun c =>
        (c, ((g.degree c : Int) - ((g.predAdj c).length : Int))))) := by
    simp [offspring_influence, hmem]
  generalize hgen : (g.succAdj anid).map (fun c =>
      (c, ((g.degree c : Int) - ((g.predAdj c).length : Int)))) = off at hoff
  have hoffne : off ≠ [] := by
    rw [← hgen]
    intro hc
    apply hne
    rcases hsucc : g.succAdj anid with _ | ⟨a, l⟩
    · rfl
    · rw [hsucc, List.map_cons] at hc
      cases hc
  have hnn : ∀ p ∈ off, 0 ≤ p.2 := offspring_influence_nonneg g anid off hoff
  obtain ⟨p0, hp0⟩ := List.exists_mem_of_ne_nil off hoffne
  have hMlt : (-999 : Int) < maxVal off (-999) :=
    lt_of_lt_of_le (show (-999 : Int) < 0 by norm_num)
      (le_trans (hnn p0 hp0) (mem_le_maxVal off (-999) p0 hp0))
  obtain ⟨prF, hfF, hpeF, hfoldF⟩ := fold_first_argmax off ⟨-999, -999, []⟩ hMlt
  have hatt : ∃ p ∈ off, p.2 = maxVal off (-999) := by
    rcases maxVal_attained off (-999) with hx | hx
    · rw [hx] at hMlt
      exact absurd hMlt (lt_irrefl _)
    · exact hx
  obtain ⟨pa, hpa, hpae⟩ := hatt
  obtain ⟨prL, hfL⟩ := exists_find?_of_mem (fun p => p.2 == maxVal off (-999)) off.reverse pa
    (List.mem_reverse.mpr hpa) (by simp [hpae])
  obtain ⟨hpeL, hfoldL⟩ := fold_last_argmax off ⟨-999, -999, []⟩ prL hfL
  refine ⟨off, prF, prL, hoff, hoffne, (fun p hp => mem_le_maxVal off (-999) p hp),
    ⟨pa, hpa, hpae⟩, hfF, hfL, ?_, ?_⟩
  · rw [most_influential_offspring_eq g anid "first" off hoff,
      if_neg (by decide : ¬ ("first" = "all")), hfoldF]
  · rw [most_influential_offspring_eq g anid "last" off hoff,
      if_neg (by decide : ¬ ("last" = "all")), hfoldL]

/-- Witness for C9 on the scenario graph: discovery order A, B, C (nodes
2, 3, 4) with influence 2, 2, 0; resolving first yields {A: 2}, resolving
last yields {B: 2}. -/
theorem c9_first_last_witness :
    1 ∈ gScen.nodes ∧ gScen.succAdj 1 ≠ [] ∧
    (∃ off prF prL,
      offspring_influence gScen 1 = some off ∧ off ≠ [] ∧
      (∀ p ∈ off, p.2 ≤ maxVal off (-999)) ∧
      (∃ p ∈ off, p.2 = maxVal off (-999)) ∧
      off.find? (fun p => p.2 == maxVal off (-999)) = some prF ∧
      off.reverse.find? (fun p => p.2 == maxVal off (-999)) = some prL ∧
      most_influential_offspring gScen 1 "first" = some [((prF.1 : Int), maxVal off (-999))] ∧
      most_influential_offspring gScen 1 "last" = some [((prL.1 : Int), maxVal off (-999))]) ∧
    most_influential_offspring gScen 1 "first" = some [(2, 2)] ∧
    most_influential_offspring gScen 1 "last" = some [(3, 2)] :=
  ⟨by decide, by decide, c9_first_last gScen 1 (by decide) (by decide), by decide, by decide⟩

/-- C10: for a node of the graph without successors, resolving `first`
or `last` returns the sentinel mapping {-999 ↦ -999} (the internal
initial values leak into the result), while resolving `all` returns the
empty mapping. -/
theorem c10_sentinel_leak (g : DiGraph) (anid : Nat)
    (h : anid ∈ g.nodes) (hs : g.succAdj anid = []) :
    most_influential_offspring g anid "first" = some [(-999, -999)] ∧
    most_influential_offspring g anid "last" = some [(-999, -999)] ∧
    most_influential_offspring g anid "all" = some [] := by
  have hoff : offspring_influence g anid = some [] := by
    simp [offspring_influence, h, hs]
  refine ⟨?_, ?_, ?_⟩
  · rw [most_influential_offspring_eq g anid "first" [] hoff,
      if_neg (by decide : ¬ ("first" = "all"))]
    rfl
  · rw [most_influential_offspring_eq g anid "last" [] hoff,
      if_neg (by decide : ¬ ("last" = "all"))]
    rfl
  · rw [most_influential_offspring_eq g anid "all" [] hoff,
      if_pos (rfl : "all" = "all")]
    rfl

/-- Witness for C10 on the isolated-node graph. -/
theorem c10_sentinel_leak_witness :
    5 ∈ gIso.nodes ∧ gIso.succAdj 5 = [] ∧
    (most_influential_offspring gIso 5 "first" = some [(-999, -999)] ∧
     most_influential_offspring gIso 5 "last" = some [(-999, -999)] ∧
     most_influential_offspring gIso 5 "all" = some []) :=
  ⟨by decide, by decide, c10_sentinel_leak gIso 5 (by decide) (by decide)⟩

theorem dyadStep_char (g : DiGraph) (c : Census) (uv : Nat × Nat) :
    (dyadStep g c uv).asymmetric = c.asymmetric ∧
    (dyadStep g c uv).null + (dyadStep g c uv).mutuals =
      c.null + c.mutuals + (if countedPair g uv = true then 1 else 0) := by
  by_cases hn : g.has_neighbor uv.1 uv.2 = true
  · by_cases he : (uv.1, uv.2) ∈ g.edges
    · have hcond : uv.1 ∈ g.predAdj uv.2 ∧ uv.2 ∈ g.succAdj uv.1 :=
        ⟨(mem_predAdj g uv.1 uv.2).mpr he, (mem_succAdj g uv.1 uv.2).mpr he⟩
      have hstep : dyadStep g c uv = { c with mutuals := c.mutuals + 1 } := by
        unfold dyadStep
        rw [if_neg (by simp [hn]), if_pos hcond]
      have hcp : countedPair g uv = true := by
        simp [countedPair, DiGraph.hasEdge, he]
      rw [hstep, hcp, if_pos rfl]
      exact ⟨rfl, by show c.null + (c.mutuals + 1) = c.null + c.mutuals + 1; omega⟩
    · have hc1 : ¬ (uv.1 ∈ g.predAdj uv.2 ∧ uv.2 ∈ g.succAdj uv.1) := by
        rintro ⟨h1, _⟩
        exact he ((mem_predAdj g uv.1 uv.2).mp h1)
      have hc2 : ¬ (uv.1 ∈ g.predAdj uv.2 ∧ uv.2 ∉ g.succAdj uv.1) := by
        rintro ⟨h1, _⟩
        exact he ((mem_predAdj g uv.1 uv.2).mp h1)
      have hc3 : ¬ (uv.1 ∉ g.predAdj uv.2 ∧ uv.2 ∈ g.succAdj uv.1) := by
        rintro ⟨_, h2⟩
        exact he ((mem_succAdj g uv.1 uv.2).mp h2)
      have hstep : dyadStep g c uv = c := by
        unfold dyadStep
        rw [if_neg (by simp [hn]), if_neg hc1, if_neg hc2, if_neg hc3]
      have hcp : countedPair g uv = false := by
        simp [countedPair, DiGraph.hasEdge, he, hn]
      rw [hstep, hcp, if_neg (by simp)]
      exact ⟨rfl, by show c.null + c.mutuals = c.null + c.mutuals + 0; omega⟩
  · have hn' : g.has_neighbor uv.1 uv.2 = false := by
      cases hh : g.has_neighbor uv.1 uv.2
      · rfl
      · exact absurd hh hn
    have hstep : dyadStep g c uv = { c with null := c.null + 1 } := by
      unfold dyadStep
      rw [if_pos (by simp [hn'])]
    have hcp : countedPair g uv = true := by
      simp [countedPair, hn']
    rw [hstep, hcp, if_pos rfl]
    exact ⟨rfl, by show c.null + 1 + c.mutuals = c.null + c.mutuals + 1; omega⟩

theorem dyad_fold_census (g : DiGraph) :
    ∀ (ps : List (Nat × Nat)) (c : Census),
      (ps.foldl (dyadStep g) c).asymmetric = c.asymmetric ∧
      (ps.foldl (dyadStep g) c).null + (ps.foldl (dyadStep g) c).mutuals =
        c.null + c.mutuals + ps.countP (countedPair g) := by
  intro ps
  induction ps with
  | nil => intro c; exact ⟨rfl, by simp⟩
  | cons uv ps ih =>
    intro c
    rw [List.foldl_cons, List.countP_cons]
    obtain ⟨ha, hs⟩ := ih (dyadStep g c uv)
    obtain ⟨ha2, hs2⟩ := dyadStep_char g c uv
    refine ⟨ha.trans ha2, ?_⟩
    rw [hs, hs2]
    by_cases hcp : countedPair g uv = true
    · simp only [hcp, if_pos rfl]
      omega
    · have hcp' : countedPair g uv = false := by
        cases hh : countedPair g uv
        · rfl
        · exact absurd hh hcp
      simp only [hcp', if_neg (by simp : ¬ (false = true))]
      omega

theorem orderedPairs_length :
    ∀ (l : List Nat), 2 * (orderedPairs l).length = l.length * (l.length - 1) := by
  intro l
  induction l with
  | nil => rfl
  | cons u rest ih =>
    show 2 * (rest.map (fun v => (u, v)) ++ orderedPairs rest).length = _
    rw [List.length_append, List.length_map, List.length_cons]
    cases hrl : rest.length with
    | zero =>
      rw [hrl] at ih
      omega
    | succ m =>
      rw [hrl] at ih
      have ih2 : 2 * (orderedPairs rest).length = (m + 1) * m := by
        simpa using ih
      have key : (m + 1 + 1) * (m + 1 + 1 - 1) = (m + 1) * m + 2 * (m + 1) := by
        have h1 : m + 1 + 1 - 1 = m + 1 := rfl
        rw [h1]
        ring
      rw [key]
      omega

/-- C4 counterexample: the acyclic graph whose only edge runs against
node-iteration order.  The census counts nothing at all: its totals sum
to 0, not C(2, 2) = 1, and the single one-directional pair is neither
counted as asymmetric nor at all. -/
theorem c4_census_counterexample :
    is_directed_acyclic_graph gRev = true ∧
    gRev.hasEdge 2 1 = true ∧ gRev.hasEdge 1 2 = false ∧
    dyad_census gRev = some ⟨0, 0, 0⟩ ∧
    gRev.nodes.length = 2 ∧
    (0 + 0 + 0 : Nat) ≠ 2 * (2 - 1) / 2 := by
  refine ⟨by decide, by decide, by decide, by decide, by decide, by decide⟩

/-- C4 (amended): on acyclic input the census classifies each ordered
pair (in node-list order) by the undirected adjacency test and then by
the presence of an edge from the earlier node to the later one: no
adjacency counts as null, an edge in iteration direction counts as
mutual, and a pair whose only edge runs against iteration order is not
counted at all; asymmetric is never incremented, and the three counters
sum to the number of counted pairs (`countedPair`) rather than to
C(n, 2) = n(n-1)/2, the total number of unordered pairs. -/
theorem c4_census_sum_amended (g : DiGraph) (c : Census) (h : dyad_census g = some c) :
    c.asymmetric = 0 ∧
    c.null + c.asymmetric + c.mutuals = (orderedPairs g.nodes).countP (countedPair g) ∧
    2 * (orderedPairs g.nodes).length = g.nodes.length * (g.nodes.length - 1) := by
  have hdag : is_directed_acyclic_graph g = true := by
    by_contra hd
    simp [dyad_census, hd] at h
  rw [dyad_census, if_pos hdag, Option.some_inj] at h
  obtain ⟨ha, hs⟩ := dyad_fold_census g (orderedPairs g.nodes) ⟨0, 0, 0⟩
  rw [h] at ha hs
  have ha0 : c.asymmetric = 0 := ha
  have hs0 : c.null + c.mutuals = 0 + 0 + (orderedPairs g.nodes).countP (countedPair g) := hs
  refine ⟨ha0, by omega, orderedPairs_length g.nodes⟩

/-- Witness for C4 (amended) on the three-node graph with one edge in
iteration order: census {null 2, asymmetric 0, mutual 1}, and 2 + 0 + 1
equals the number of counted pairs, here all 3 pairs. -/
theorem c4_census_sum_witness :
    dyad_census gOneEdge = some ⟨2, 0, 1⟩ ∧
    ((⟨2, 0, 1⟩ : Census).asymmetric = 0 ∧
     (⟨2, 0, 1⟩ : Census).null + (⟨2, 0, 1⟩ : Census).asymmetric + (⟨2, 0, 1⟩ : Census).mutuals =
       (orderedPairs gOneEdge.nodes).countP (countedPair gOneEdge) ∧
     2 * (orderedPairs gOneEdge.nodes).length =
       gOneEdge.nodes.length * (gOneEdge.nodes.length - 1)) :=
  ⟨by decide, c4_census_sum_amended gOneEdge ⟨2, 0, 1⟩ (by decide)⟩

theorem geo_fold (g : DiGraph) :
    ∀ (ps : List (Nat × Nat)) (s c : ℚ),
      ps.foldl (geoStep g true) (s, c) =
        (s + ((ps.filterMap (fun uv =>
            match shortest_path_length g uv.1 uv.2 with
            | none => none
            | some l => if 0 < l then some l else none)).map (fun (l : Nat) => (l : ℚ))).sum,
         c + ((ps.filterMap (fun uv =>
            match shortest_path_length g uv.1 uv.2 with
            | none => none
            | some l => if 0 < l then some l else none)).length : ℚ)) := by
  intro ps
  induction ps with
  | nil => intro s c; simp
  | cons uv ps ih =>
    intro s c
    rw [List.foldl_cons]
    cases hsp : shortest_path_length g uv.1 uv.2 with
    | none =>
      have hstep : geoStep g true (s, c) uv = (s, c) := by
        simp [geoStep, hsp]
      rw [hstep, List.filterMap_cons]
      simp only [hsp]
      exact ih s c
    | some l =>
      by_cases hl : 0 < l
      · have hstep : geoStep g true (s, c) uv = (s + (l : ℚ), c + 1) := by
          simp [geoStep, hsp, hl]
        rw [hstep, List.filterMap_cons]
        simp only [hsp, if_pos hl]
        rw [ih (s + (l : ℚ)) (c + 1)]
        rw [List.map_cons, List.sum_cons, List.length_cons]
        refine Prod.ext ?_ ?_
        · show s + (l : ℚ) + _ = s + ((l : ℚ) + _)
          ring
        · show c + 1 + _ = c + _
          push_cast
          ring
      · have hstep : geoStep g true (s, c) uv = (s, c) := by
          simp [geoStep, hsp, hl]
        rw [hstep, List.filterMap_cons]
        simp only [hsp, if_neg hl]
        exact ih s c

/-- C5 counterexample: on the acyclic graph with the single edge 2 → 1,
the ordered pair (2, 1) has a directed path of length 1, so the claimed
average is 1; yet the loop, which only visits pairs in node-list order,
finds no path for (1, 2) and the function returns a failure value. -/
theorem c5_geodesic_counterexample :
    is_directed_acyclic_graph gRev = true ∧
    shortest_path_length gRev 2 1 = some 1 ∧
    mean_geodesic gRev = none ∧ (none : Option ℚ) ≠ some 1 := by
  refine ⟨by decide, by decide, by decide, by decide⟩

/-- C5 (amended): on acyclic input the function averages the shortest
directed path lengths over exactly those ordered pairs whose first node
precedes the second in the graph's node list (pairs without a path are
excluded from numerator and denominator), and fails exactly when no such
pair has a path — pairs ordered against the node list are never
examined. -/
theorem c5_geodesic_amended (g : DiGraph) (h : is_directed_acyclic_graph g = true) :
    mean_geodesic g =
      if geoLengths g = [] then none
      else some (((geoLengths g).map (fun (l : Nat) => (l : ℚ))).sum / ((geoLengths g).length : ℚ)) := by
  have hfoldback : (orderedPairs g.nodes).filterMap (fun uv =>
      match shortest_path_length g uv.1 uv.2 with
      | none => none
      | some l => if 0 < l then some l else none) = geoLengths g := rfl
  simp only [mean_geodesic, h, if_true, ite_true]
  rw [geo_fold g (orderedPairs g.nodes) 0 0, hfoldback]
  by_cases hgl : geoLengths g = []
  · rw [hgl]
    simp
  · rw [if_neg hgl]
    have hlen : ((geoLengths g).length : ℚ) ≠ 0 := by
      simp only [ne_eq, Nat.cast_eq_zero, List.length_eq_zero]
      exact hgl
    rw [if_neg (by simpa using hlen)]
    simp

/-- Witness for C5 (amended) on the two-node path graph. -/
theorem c5_geodesic_witness :
    is_directed_acyclic_graph gPath = true ∧
    mean_geodesic gPath =
      (if geoLengths gPath = [] then none
       else some (((geoLengths gPath).map (fun (l : Nat) => (l : ℚ))).sum /
         ((geoLengths gPath).length : ℚ))) :=
  ⟨by decide, c5_geodesic_amended gPath (by decide)⟩
